import Mathlib

/-!
Verification of the knapsack genetic algorithm (knapsackGenAlgo.py).

The Python source is shallowly embedded: classes become structures, the
pseudo-random generator becomes explicit oracle streams (`Nat → Nat`), and
operations that can raise (`IndexError` on out-of-range indexing or
`random.choice` on an empty list) return `Option`.  Python `==` on `Box` and
`Chromosome` objects is reference identity; the embedding uses structural
equality, which coincides with identity in the scenarios the claims quantify
over (items drawn from a distinctly-named catalog, each name denoting a single
object).
-/

namespace Knapsack

open List

/-- `Box` class: name, weight, value.  The program only ever compares names
for equality and sorts by them lexicographically, and every name in the source
is a single character, so names are modelled as `Char` (an order-embedding of
the source's strings).  The driver uses non-negative integer weights and
values, so they are `Nat`; fitness may go negative, so it is `Int`. -/
structure Box where
  name : Char
  weight : Nat
  value : Nat
deriving DecidableEq, Repr

/-- `Chromosome` class: the gene list plus the cached derived fields exactly as
the Python object stores them (the cached fields can be stale, as in the
source). -/
structure Chromosome where
  boxes : List Box
  total_weight : Nat
  total_value : Nat
  fitness : Int
deriving DecidableEq, Repr

/-- `Chromosome.sum_weight`: fold addition over the genes' weights. -/
def sum_weight (boxes : List Box) : Nat :=
  boxes.foldl (fun s i => s + i.weight) 0

/-- `Chromosome.sum_value`: fold addition over the genes' values. -/
def sum_value (boxes : List Box) : Nat :=
  boxes.foldl (fun s i => s + i.value) 0

/-- `Chromosome.calc_fitness`: sum of values; subtract `int((weight-120)/2)`
when the weight exceeds 120, else add the ideal-weight bonus 2 when the weight
is exactly 120. -/
def calc_fitness (boxes : List Box) : Int :=
  let fit_score : Int := boxes.foldl (fun s i => s + (i.value : Int)) 0
  let weight : Nat := boxes.foldl (fun s i => s + i.weight) 0
  if weight > 120 then fit_score - (((weight - 120) / 2 : Nat) : Int)
  else if weight = 120 then fit_score + 2
  else fit_score

/-- `Chromosome.gen_chromosome` applied to the already-shuffled box list
(`random.shuffle` is modelled by quantifying over permutations of the catalog;
the indexing pattern depends only on the length, which every permutation
preserves).  The loop reads `box_list[0]`, `box_list[1]`, `box_list[2]`;
`none` models the `IndexError` raised when the non-empty list is shorter
than 3. -/
def gen_chromosome (box_list : List Box) : Option (List Box) :=
  if box_list.length = 0 then some []
  else if 3 ≤ box_list.length then some (box_list.take 3)
  else none

/-- `Population` class: the member list and the `size` field. -/
structure Population where
  population : List Chromosome
  size : Nat
deriving DecidableEq, Repr

/-- The sort key of `Population.get_fittest`: descending fitness
(`sorted(key=fitness, reverse=True)`). -/
def fitDesc (a b : Chromosome) : Prop := b.fitness ≤ a.fitness

instance : DecidableRel fitDesc := fun a b =>
  inferInstanceAs (Decidable (b.fitness ≤ a.fitness))

instance : IsTotal Chromosome fitDesc := ⟨fun a b => le_total b.fitness a.fitness⟩

instance : IsTrans Chromosome fitDesc := ⟨fun _ _ _ h1 h2 => le_trans h2 h1⟩

/-- `Population.get_fittest`: sort the member list by descending fitness
(Python's stable `sorted` is modelled by the stable `insertionSort`). -/
def get_fittest (p : Population) : Population :=
  { p with population := p.population.insertionSort fitDesc }

/-- `Population.cull`: sort via `get_fittest`, keep the first
`int(len(population)/2)` members and store that length in `size`. -/
def cull (p : Population) : Population :=
  let sortedPop := get_fittest p
  let length := sortedPop.population.length / 2
  { population := sortedPop.population.take length, size := length }

/-- The sort key used by `crossover` and `dupe_check`:
`sorted(key=lambda x: x.name)`. -/
def nameLe (a b : Box) : Prop := a.name ≤ b.name

instance : DecidableRel nameLe := fun a b =>
  inferInstanceAs (Decidable (a.name ≤ b.name))

instance : IsTotal Box nameLe := ⟨fun a b => le_total a.name b.name⟩

instance : IsTrans Box nameLe := ⟨fun _ _ _ h1 h2 => le_trans h1 h2⟩

instance : IsAntisymm Box (fun a b => a.name < b.name) :=
  ⟨fun _ _ h1 h2 => absurd h2 (lt_asymm h1)⟩

/-- Sorting a gene list by box name, as both `crossover` and `dupe_check` do. -/
def sortByName (l : List Box) : List Box :=
  l.insertionSort nameLe

/-- `dupe_check(x, y)`: true iff the name-sorted gene lists are element-wise
equal. -/
def dupe_check (x y : Chromosome) : Bool :=
  decide (sortByName x.boxes = sortByName y.boxes)

/-- One position of the `crossover` loop body: flip a coin (`randint(0,1)`,
modelled as `coin % 2`); on 0 take parent-x's gene at this position unless it
is already in the child (then take parent-y's), and symmetrically on 1. -/
def cross_step (baby : List Box) (g1 g2 : Box) (coin : Nat) : List Box :=
  if coin % 2 = 0 then
    if g1 ∈ baby then baby ++ [g2] else baby ++ [g1]
  else
    if g2 ∈ baby then baby ++ [g1] else baby ++ [g2]

/-- The `for i in range(0, len(temp1))` loop of `crossover`, over the
position-wise pairs of the two sorted parents, drawing one coin per position
from the oracle stream `coins`. -/
def cross_loop (coins : Nat → Nat) : List (Box × Box) → List Box → Nat → List Box
  | [], baby, _ => baby
  | g :: gs, baby, i => cross_loop coins gs (cross_step baby g.1 g.2 (coins i)) (i + 1)

/-- `crossover(x, y)`: return `x` when `dupe_check` fires; otherwise sort both
parents' genes by name and build the child position-wise.  The child's cached
fields are those of `Chromosome(temp)` built from the empty list (all zero) —
the source leaves them stale until the caller recomputes them.  Both parents
have the same gene count (3) wherever the source calls this, so the zip loses
nothing. -/
def crossover (x y : Chromosome) (coins : Nat → Nat) : Chromosome :=
  if dupe_check x y then x
  else
    let temp1 := sortByName x.boxes
    let temp2 := sortByName y.boxes
    { boxes := cross_loop coins (temp1.zip temp2) [] 0
      total_weight := 0, total_value := 0, fitness := 0 }

/-- `mutant_prob(probability)`: multiply by 10 and compare a uniform draw from
`randint(0,10)` (modelled as `draw % 11`) with `<=`. -/
def mutant_prob (probability : ℚ) (draw : Nat) : Bool :=
  decide (((draw % 11 : Nat) : ℚ) ≤ 10 * probability)

/-- The `for j in range(0, len(baby.boxes))` loop of `mutate`: one
`mutant_prob` draw per position (stream `pd`, index `j`), and on mutation one
`random.choice` draw (stream `cd`, index `k`, the count of choices made so
far) picking from `temp_list` and removing the pick.  `none` models the
`IndexError` that `random.choice` raises on an empty pool. -/
def mutate_loop (probability : ℚ) (pd cd : Nat → Nat) :
    List Box → List Box → Nat → Nat → Option (List Box)
  | [], _, _, _ => some []
  | g :: gs, temp_list, j, k =>
    if mutant_prob probability (pd j) then
      match temp_list with
      | [] => none
      | t :: ts =>
        let chosen := (t :: ts).get ⟨cd k % (t :: ts).length, Nat.mod_lt _ (Nat.succ_pos _)⟩
        (mutate_loop probability pd cd gs ((t :: ts).erase chosen) (j + 1) (k + 1)).map
          (chosen :: ·)
    else
      (mutate_loop probability pd cd gs temp_list (j + 1) (k + 1)).map (g :: ·)

/-- `mutate(baby, probability, boxes)`: build the available pool by removing
each of the child's genes from a copy of the catalog (`list.remove` deletes
the first occurrence and is guarded by an `in` test, which is exactly
`List.erase`), then run the per-position loop. -/
def mutate (baby : Chromosome) (probability : ℚ) (boxes : List Box)
    (pd cd : Nat → Nat) : Option Chromosome :=
  let temp_list := baby.boxes.foldl (fun l i => l.erase i) boxes
  (mutate_loop probability pd cd baby.boxes temp_list 0 0).map
    (fun bs => { baby with boxes := bs })

/-- `random.choice` on the population list: a uniform index, modelled as
`draw % length`; `none` models the `IndexError` on an empty list. -/
def pick (pop : List Chromosome) (draw : Nat) : Option Chromosome :=
  pop.get? (draw % pop.length)

/-- The `while x == y: y = random.choice(population.population)` re-draw loop
of `genetic_algo`, run with explicit fuel: `none` means the loop has not
exited within `fuel` iterations (for every fuel, on some draw streams). -/
def redraw_loop (pop : List Chromosome) (x : Chromosome) (draws : Nat → Nat) :
    Nat → Nat → Option Chromosome
  | _, 0 => none
  | i, fuel + 1 =>
    match pick pop (draws i) with
    | none => none
    | some y => if y = x then redraw_loop pop x draws (i + 1) fuel else some y

/-- The re-draw loop exits on draw stream `draws` iff some draw picks a
chromosome different from `x`. -/
def redraw_exits (pop : List Chromosome) (x : Chromosome) (draws : Nat → Nat) : Prop :=
  ∃ n y, pick pop (draws n) = some y ∧ y ≠ x

/-- `return_fittest(population)`: sort the population in place (`get_fittest`)
and return its first member; `none` models the `IndexError` on an empty
population.  The sorted population is returned alongside to model the in-place
mutation. -/
def return_fittest (p : Population) : Option (Population × Chromosome) :=
  let sortedPop := get_fittest p
  match sortedPop.population with
  | [] => none
  | c :: _ => some (sortedPop, c)

/-- The end-of-generation logic of `genetic_algo` (lines 245-252): find the
fittest member of the fully built next-generation buffer; if its fitness
equals `MAX_SCORE = 22`, call `return_fittest` a second time and return that
member (`Sum.inl`, the buffer is not culled); otherwise copy the buffer into
the population and cull it (`Sum.inr`). -/
def gen_step (nextgen population : Population) : Option (Chromosome ⊕ Population) :=
  match return_fittest nextgen with
  | none => none
  | some (ng, fittest) =>
    if fittest.fitness = 22 then
      match return_fittest ng with
      | none => none
      | some (_, best) => some (Sum.inl best)
    else
      some (Sum.inr (cull { population with population := ng.population }))

/-- The driver's catalog: `a(20,6) b(30,5) c(60,8) d(90,7) e(50,6) f(70,9)
g(30,4)`. -/
def driver_boxes : List Box :=
  [⟨'a', 20, 6⟩, ⟨'b', 30, 5⟩, ⟨'c', 60, 8⟩, ⟨'d', 90, 7⟩,
   ⟨'e', 50, 6⟩, ⟨'f', 70, 9⟩, ⟨'g', 30, 4⟩]

/-- The chromosome `{a, b, c}` over the driver catalog: weight 110, value 19,
fitness 19 (under the 120 threshold). -/
def chromABC : Chromosome :=
  ⟨[⟨'a', 20, 6⟩, ⟨'b', 30, 5⟩, ⟨'c', 60, 8⟩], 110, 19, 19⟩

/-- The chromosome `{a, b, d}` over the driver catalog: weight 140, value 18,
fitness 18 − ⌊20/2⌋ = 8. -/
def chromABD : Chromosome :=
  ⟨[⟨'a', 20, 6⟩, ⟨'b', 30, 5⟩, ⟨'d', 90, 7⟩], 140, 18, 8⟩

/-- The chromosome `{a, b, f}` over the driver catalog: weight exactly 120,
value 20, fitness 20 + 2 = 22 — the target score of the reference run. -/
def chromABF : Chromosome :=
  ⟨[⟨'a', 20, 6⟩, ⟨'b', 30, 5⟩, ⟨'f', 70, 9⟩], 120, 20, 22⟩

/-- A 35-member population of the reference configuration's size, used to
exhibit the non-exiting draw stream of the second-parent re-draw loop. -/
def c3_pop : List Chromosome :=
  chromABC :: List.replicate 34 chromABD

/-- The `{a, b, c}` genes in the order `b, a, c` — the same multiset as
`chromABC` in a different gene order. -/
def chromBAC : Chromosome :=
  ⟨[⟨'b', 30, 5⟩, ⟨'a', 20, 6⟩, ⟨'c', 60, 8⟩], 110, 19, 19⟩

/-! ## Theorems -/

lemma foldl_value_cast (bs : List Box) : ∀ n : Nat,
    bs.foldl (fun s i => s + (i.value : Int)) (n : Int)
      = ((bs.foldl (fun s i => s + i.value) n : Nat) : Int) := by
  induction bs with
  | nil => intro n; rfl
  | cons b bs ih =>
    intro n
    have h : ((n : Int) + (b.value : Int)) = ((n + b.value : Nat) : Int) := by push_cast; ring
    simp only [List.foldl_cons]
    rw [h, ih (n + b.value)]

/-- C1: for every chromosome, the fitness computed by `calc_fitness` equals
the sum of its genes' values, minus `⌊(total_weight − 120)/2⌋` when the total
weight exceeds 120, plus a bonus of 2 when the total weight is exactly 120,
and with no bonus or penalty when the total weight is strictly below 120. -/
theorem C1_calc_fitness_formula (c : Chromosome) :
    calc_fitness c.boxes =
      (sum_value c.boxes : Int)
        - (if 120 < sum_weight c.boxes then ((sum_weight c.boxes : Int) - 120) / 2 else 0)
        + (if sum_weight c.boxes = 120 then 2 else 0) := by
  unfold calc_fitness sum_value sum_weight
  have hv := foldl_value_cast c.boxes 0
  rw [show ((0 : Nat) : Int) = (0 : Int) from rfl] at hv
  rw [hv]
  set w := c.boxes.foldl (fun s i => s + i.weight) 0 with hw
  by_cases h1 : w > 120
  · rw [if_pos h1, if_pos h1, if_neg (by omega)]
    have h3 : (((w - 120) / 2 : Nat) : Int) = ((w : Int) - 120) / 2 := by
      rw [Int.ofNat_ediv]
      congr 1
      omega
    rw [h3]
    ring
  · rw [if_neg h1, if_neg h1]
    by_cases h2 : w = 120
    · rw [if_pos h2, if_pos h2]
      ring
    · rw [if_neg h2, if_neg h2]
      ring

/-- C5: `cull` keeps exactly `⌊N/2⌋` members of an `N`-member population —
a prefix of the descending-fitness sort, hence the `⌊N/2⌋` highest-fitness
members in descending-fitness order — and sets the `size` field to `⌊N/2⌋`;
populations with 0 or 1 members are culled to the empty population. -/
theorem C5_cull_halves (p : Population) :
    (cull p).population = (get_fittest p).population.take (p.population.length / 2)
    ∧ (cull p).population.length = p.population.length / 2
    ∧ (cull p).size = p.population.length / 2
    ∧ List.Sorted fitDesc (cull p).population
    ∧ (∀ a ∈ (cull p).population,
        ∀ b ∈ (get_fittest p).population.drop (p.population.length / 2), fitDesc a b)
    ∧ ((cull p).population ++
        (get_fittest p).population.drop (p.population.length / 2)).Perm p.population
    ∧ (p.population.length ≤ 1 → (cull p).population = []) := by
  have hsort : List.Sorted fitDesc (get_fittest p).population :=
    List.sorted_insertionSort fitDesc p.population
  have hperm0 : (get_fittest p).population.Perm p.population :=
    List.perm_insertionSort fitDesc p.population
  have hlen : (get_fittest p).population.length = p.population.length := hperm0.length_eq
  have hcullpop : (cull p).population
      = (get_fittest p).population.take (p.population.length / 2) := by
    unfold cull
    dsimp only
    rw [hlen]
  have hsplit : (get_fittest p).population.take (p.population.length / 2)
      ++ (get_fittest p).population.drop (p.population.length / 2)
      = (get_fittest p).population :=
    List.take_append_drop _ _
  have hpairs := (List.pairwise_append).mp (hsplit.symm ▸ hsort)
  refine ⟨hcullpop, ?_, ?_, ?_, ?_, ?_, ?_⟩
  · rw [hcullpop, List.length_take, hlen]
    omega
  · unfold cull
    dsimp only
    rw [hlen]
  · rw [hcullpop]
    exact hsort.sublist (List.take_sublist _ _)
  · intro a ha b hb
    rw [hcullpop] at ha
    exact hpairs.2.2 a ha b hb
  · rw [hcullpop, hsplit]
    exact hperm0
  · intro h
    rw [hcullpop]
    have : p.population.length / 2 = 0 := by omega
    rw [this, List.take_zero]

/-- C5 boundary witness: culling a singleton population yields the empty
population with `size` 0. -/
theorem C5_cull_halves_witness :
    (cull ⟨[chromABC], 1⟩).population = [] ∧ (cull ⟨[chromABC], 1⟩).size = 0 := by
  obtain ⟨-, -, hsize, -, -, -, hbound⟩ := C5_cull_halves ⟨[chromABC], 1⟩
  exact ⟨hbound (by decide), hsize⟩

/-- C6: `get_fittest` turns the member list into a permutation of itself that
is non-increasing in fitness (sorted under the descending-fitness order). -/
theorem C6_get_fittest_perm_sorted (p : Population) :
    (get_fittest p).population.Perm p.population
    ∧ List.Sorted fitDesc (get_fittest p).population :=
  ⟨List.perm_insertionSort fitDesc p.population,
   List.sorted_insertionSort fitDesc p.population⟩

/-- C10: the claim says gene generation from a non-empty catalog of fewer
than 3 items never reads past the end of the catalog; in the code the
`for i in range(0,3)` loop reads `box_list[1]` and `box_list[2]` regardless,
so on a 1-item catalog the access is out of bounds (`IndexError`, modelled as
`none`).  This theorem evaluates the embedded generator at that failing
input. -/
theorem C10_gen_chromosome_one_item_raises :
    gen_chromosome [⟨'a', 20, 6⟩] = none := rfl

lemma redraw_loop_sound (pop : List Chromosome) (x : Chromosome) (draws : Nat → Nat) :
    ∀ fuel i z, redraw_loop pop x draws i fuel = some z →
      z ≠ x ∧ ∃ n, pick pop (draws n) = some z := by
  intro fuel
  induction fuel with
  | zero => intro i z h; exact absurd h (by simp [redraw_loop])
  | succ m ih =>
    intro i z h
    rw [redraw_loop] at h
    cases hp : pick pop (draws i) with
    | none =>
      simp only [hp] at h
      exact Option.noConfusion h
    | some y =>
      simp only [hp] at h
      by_cases hyx : y = x
      · rw [if_pos hyx] at h
        exact ih (i + 1) z h
      · rw [if_neg hyx] at h
        obtain rfl : y = z := by simpa using h
        exact ⟨hyx, i, hp⟩

lemma redraw_loop_complete (pop : List Chromosome) (x : Chromosome) (draws : Nat → Nat) :
    ∀ n i, (∃ y, pick pop (draws (i + n)) = some y ∧ y ≠ x) →
      ∃ fuel z, redraw_loop pop x draws i fuel = some z ∧ z ≠ x := by
  intro n
  induction n with
  | zero =>
    rintro i ⟨y, hy, hne⟩
    rw [Nat.add_zero] at hy
    refine ⟨1, y, ?_, hne⟩
    rw [redraw_loop]
    simp only [hy]
    rw [if_neg hne]
  | succ m ih =>
    rintro i ⟨y, hy, hne⟩
    cases hp : pick pop (draws i) with
    | none =>
      exfalso
      have hlen : pop.length = 0 := by
        by_contra hpos
        have hlt : draws i % pop.length < pop.length :=
          Nat.mod_lt _ (Nat.pos_of_ne_zero hpos)
        rw [pick, List.get?_eq_get hlt] at hp
        exact absurd hp (by simp)
      have : pick pop (draws (i + (m + 1))) = none := by
        rw [pick, List.get?_eq_none]
        omega
      rw [this] at hy
      exact absurd hy (by simp)
    | some z =>
      by_cases hzx : z = x
      · obtain ⟨fuel, w, hw, hwx⟩ :=
          ih (i + 1) ⟨y, by rw [show i + 1 + m = i + (m + 1) by omega]; exact hy, hne⟩
        refine ⟨fuel + 1, w, ?_, hwx⟩
        rw [redraw_loop]
        simp only [hp]
        rw [if_pos hzx]
        exact hw
      · refine ⟨1, z, ?_, hzx⟩
        rw [redraw_loop]
        simp only [hp]
        rw [if_neg hzx]

/-- C3 (amended): the second-parent re-draw loop of `genetic_algo` exits
within some number of iterations exactly when the draw stream eventually
selects a chromosome different from the first parent; on draw streams that
forever re-select the first parent (which exist for every population, see the
counterexample) the loop never exits, so termination holds for almost every
draw stream but not for every one. -/
theorem C3_redraw_loop_exits_iff (pop : List Chromosome) (x : Chromosome)
    (draws : Nat → Nat) :
    (∃ fuel z, redraw_loop pop x draws 0 fuel = some z ∧ z ≠ x)
      ↔ redraw_exits pop x draws := by
  constructor
  · rintro ⟨fuel, z, h, hzx⟩
    obtain ⟨-, n, hn⟩ := redraw_loop_sound pop x draws fuel 0 z h
    exact ⟨n, z, hn, hzx⟩
  · rintro ⟨n, y, hy, hne⟩
    obtain ⟨fuel, z, h, hzx⟩ :=
      redraw_loop_complete pop x draws n 0 ⟨y, by rw [Nat.zero_add]; exact hy, hne⟩
    exact ⟨fuel, z, h, hzx⟩

/-- C3 counterexample: in a 35-member population (the reference
configuration's size) the draw stream that constantly re-draws the first
parent's index never exits the re-draw loop, so `genetic_algo` does not
terminate for *every* sequence of pseudo-random draws. -/
theorem C3_adversarial_draws_never_exit :
    ¬ redraw_exits c3_pop chromABC (fun _ => 0) := by
  rintro ⟨n, y, hy, hne⟩
  have h0 : pick c3_pop 0 = some chromABC := rfl
  rw [show (fun _ : Nat => (0 : Nat)) n = 0 from rfl, h0] at hy
  exact hne (by simpa using hy.symm)

lemma sorted_get_fittest_eq (p : Population)
    (h : List.Sorted fitDesc p.population) : get_fittest p = p := by
  unfold get_fittest
  have he := h.insertionSort_eq
  cases p
  simp only [Population.mk.injEq]
  exact ⟨he, trivial⟩

/-- C8: when the fittest member of the fully built next-generation buffer has
fitness exactly the target score 22, `genetic_algo` returns that member
immediately (`Sum.inl`, the branch that never reaches `cull`), and the
returned chromosome has fitness exactly 22. -/
theorem C8_target_hit_returns_immediately (nextgen population ng : Population)
    (fittest : Chromosome)
    (h : return_fittest nextgen = some (ng, fittest))
    (h22 : fittest.fitness = 22) :
    gen_step nextgen population = some (Sum.inl fittest) ∧ fittest.fitness = 22 := by
  refine ⟨?_, h22⟩
  simp only [return_fittest] at h
  cases hng : (get_fittest nextgen).population with
  | nil =>
    simp only [hng] at h
    exact Option.noConfusion h
  | cons c rest =>
    simp only [hng] at h
    obtain ⟨rfl, rfl⟩ : get_fittest nextgen = ng ∧ c = fittest := by
      constructor
      · exact congrArg Prod.fst (Option.some.inj h)
      · exact congrArg Prod.snd (Option.some.inj h)
    have hsorted : List.Sorted fitDesc (get_fittest nextgen).population :=
      List.sorted_insertionSort fitDesc nextgen.population
    have hfix : get_fittest (get_fittest nextgen) = get_fittest nextgen :=
      sorted_get_fittest_eq _ hsorted
    simp only [gen_step, return_fittest, hng, hfix, h22, if_pos]

/-- C8 witness: a singleton buffer holding the `{a, b, f}` chromosome
(weight 120, value 20, fitness 22) makes `gen_step` return it via the
early-termination branch. -/
theorem C8_target_hit_witness :
    return_fittest ⟨[chromABF], 1⟩ = some (⟨[chromABF], 1⟩, chromABF)
    ∧ gen_step ⟨[chromABF], 1⟩ ⟨[], 35⟩ = some (Sum.inl chromABF)
    ∧ chromABF.fitness = 22 := by
  have h := C8_target_hit_returns_immediately ⟨[chromABF], 1⟩ ⟨[], 35⟩
    ⟨[chromABF], 1⟩ chromABF rfl rfl
  exact ⟨rfl, h.1, h.2⟩

lemma mutant_prob_zero (d : Nat) : mutant_prob 0 d = decide (d % 11 = 0) := by
  unfold mutant_prob
  rw [decide_eq_decide, mul_zero, Nat.cast_nonpos]

lemma mutant_prob_one (d : Nat) : mutant_prob 1 d = true := by
  unfold mutant_prob
  rw [decide_eq_true_eq, mul_one]
  have h : d % 11 ≤ 10 := Nat.lt_succ_iff.mp (Nat.mod_lt d (by norm_num))
  exact_mod_cast h

lemma foldl_erase_sublist (genes : List Box) :
    ∀ l : List Box, (genes.foldl (fun acc i => acc.erase i) l) <+ l := by
  induction genes with
  | nil => intro l; exact List.Sublist.refl l
  | cons g gs ih =>
    intro l
    simp only [List.foldl_cons]
    exact (ih (l.erase g)).trans (List.erase_sublist g l)

lemma foldl_erase_not_mem :
    ∀ (genes l : List Box), l.Nodup →
      ∀ g ∈ genes, g ∉ genes.foldl (fun acc i => acc.erase i) l := by
  intro genes
  induction genes with
  | nil => intro l _ g hg; cases hg
  | cons a gs ih =>
    intro l hl g hg
    simp only [List.foldl_cons]
    rcases List.mem_cons.mp hg with rfl | hgs
    · intro hmem
      exact hl.not_mem_erase ((foldl_erase_sublist gs (l.erase g)).subset hmem)
    · exact ih (l.erase a) (hl.erase a) g hgs

lemma mutate_loop_nodup (p : ℚ) (pd cd : Nat → Nat) :
    ∀ (genes pool : List Box) (j k : Nat),
      genes.Nodup → pool.Nodup → (∀ g ∈ genes, g ∉ pool) →
      genes.length ≤ pool.length →
      ∃ r, mutate_loop p pd cd genes pool j k = some r
        ∧ r.Nodup ∧ r.length = genes.length
        ∧ (∀ b ∈ r, b ∈ genes ∨ b ∈ pool) := by
  intro genes
  induction genes with
  | nil =>
    intro pool j k _ _ _ _
    exact ⟨[], rfl, List.nodup_nil, rfl, by simp⟩
  | cons g gs ih =>
    intro pool j k hng hnp hdisj hlen
    simp only [mutate_loop]
    cases hmut : mutant_prob p (pd j) with
    | false =>
      simp only [hmut, Bool.false_eq_true, if_false]
      obtain ⟨r, hr, hrnd, hrlen, hrmem⟩ :=
        ih pool (j + 1) (k + 1) hng.of_cons hnp
          (fun b hb => hdisj b (List.mem_cons_of_mem g hb))
          (by simp at hlen; omega)
      refine ⟨g :: r, by rw [hr]; rfl, ?_, by simp [hrlen], ?_⟩
      · refine List.nodup_cons.mpr ⟨?_, hrnd⟩
        intro hgr
        rcases hrmem g hgr with hmemg | hmemp
        · exact (List.nodup_cons.mp hng).1 hmemg
        · exact hdisj g (List.mem_cons_self g gs) hmemp
      · intro b hb
        rcases List.mem_cons.mp hb with rfl | hbr
        · exact Or.inl (List.mem_cons_self b gs)
        · rcases hrmem b hbr with h1 | h2
          · exact Or.inl (List.mem_cons_of_mem g h1)
          · exact Or.inr h2
    | true =>
      simp only [hmut, if_true]
      cases hpool : pool with
      | nil =>
        exfalso
        rw [hpool] at hlen
        simp at hlen
      | cons t ts =>
        set chosen := (t :: ts).get ⟨cd k % (t :: ts).length, Nat.mod_lt _ (Nat.succ_pos _)⟩
          with hchosen
        have hcm : chosen ∈ t :: ts := (t :: ts).get_mem _ _
        have hpn : (t :: ts).Nodup := hpool ▸ hnp
        obtain ⟨r, hr, hrnd, hrlen, hrmem⟩ :=
          ih ((t :: ts).erase chosen) (j + 1) (k + 1) hng.of_cons (hpn.erase chosen)
            (fun b hb hbe => hdisj b (List.mem_cons_of_mem g hb)
              (hpool ▸ (List.erase_sublist chosen (t :: ts)).subset hbe))
            (by
              rw [List.length_erase_of_mem hcm]
              rw [hpool] at hlen
              simp at hlen ⊢
              omega)
        refine ⟨chosen :: r, by dsimp only; rw [hr]; rfl, ?_, by simp [hrlen], ?_⟩
        · refine List.nodup_cons.mpr ⟨?_, hrnd⟩
          intro hcr
          rcases hrmem chosen hcr with hmemg | hmemp
          · exact hdisj chosen (List.mem_cons_of_mem g hmemg) (hpool ▸ hcm)
          · exact hpn.not_mem_erase hmemp
        · intro b hb
          rcases List.mem_cons.mp hb with rfl | hbr
          · exact Or.inr (hpool ▸ hcm)
          · rcases hrmem b hbr with h1 | h2
            · exact Or.inl (List.mem_cons_of_mem g h1)
            · exact Or.inr (hpool ▸ (List.erase_sublist chosen (t :: ts)).subset h2)

/-- C9: mutating a duplicate-free chromosome against a duplicate-free catalog
whose available pool (the catalog minus the child's genes) is large enough
succeeds for every draw stream, and the result still has pairwise-distinct
genes: every replacement comes from the pool, which excludes the current
genes and loses each chosen item. -/
theorem C9_mutate_preserves_distinct (baby : Chromosome) (p : ℚ) (boxes : List Box)
    (pd cd : Nat → Nat) (hb : baby.boxes.Nodup) (hcat : boxes.Nodup)
    (hpool : baby.boxes.length ≤ (baby.boxes.foldl (fun acc i => acc.erase i) boxes).length) :
    ∃ r, mutate baby p boxes pd cd = some r ∧ r.boxes.Nodup := by
  have hsub := foldl_erase_sublist baby.boxes boxes
  obtain ⟨bs, hbs, hnd, -, -⟩ :=
    mutate_loop_nodup p pd cd baby.boxes
      (baby.boxes.foldl (fun acc i => acc.erase i) boxes) 0 0 hb
      (hcat.sublist hsub) (foldl_erase_not_mem baby.boxes boxes hcat) hpool
  refine ⟨{ baby with boxes := bs }, ?_, hnd⟩
  unfold mutate
  dsimp only
  rw [hbs]
  rfl

/-- C9 witness: mutating the `{a, b, c}` chromosome against the 7-item driver
catalog (pool `{d, e, f, g}` of size 4 ≥ 3) with probability 1 and the
all-zero draw streams succeeds with duplicate-free genes. -/
theorem C9_mutate_preserves_distinct_witness :
    chromABC.boxes.Nodup ∧ driver_boxes.Nodup
    ∧ chromABC.boxes.length ≤
        (chromABC.boxes.foldl (fun acc i => acc.erase i) driver_boxes).length
    ∧ ∃ r, mutate chromABC 1 driver_boxes (fun _ => 0) (fun _ => 0) = some r
        ∧ r.boxes.Nodup :=
  ⟨by decide, by decide, by decide,
   C9_mutate_preserves_distinct chromABC 1 driver_boxes (fun _ => 0) (fun _ => 0)
     (by decide) (by decide) (by decide)⟩

/-- C2: the claim says `mutate` with probability 0 never changes any gene.
In the code `mutant_prob` draws `randint(0,10)` and tests `temp <= 0`, which
succeeds on the draw 0, so at probability 0 each gene is still replaced with
chance 1/11.  This theorem evaluates the embedded `mutate` at probability 0
with all-zero draw streams on the `{a, b, c}` chromosome: every gene is
replaced (the result is `{d, e, f}`). -/
theorem C2_zero_probability_still_mutates :
    ∃ r, mutate chromABC 0 driver_boxes (fun _ => 0) (fun _ => 0) = some r
      ∧ r.boxes ≠ chromABC.boxes := by
  have h0 : mutant_prob 0 0 = true := by rw [mutant_prob_zero]; rfl
  refine ⟨⟨[⟨'d', 90, 7⟩, ⟨'e', 50, 6⟩, ⟨'f', 70, 9⟩], 110, 19, 19⟩, ?_, by decide⟩
  simp only [mutate, mutate_loop, h0]
  rfl

lemma sortByName_sorted (l : List Box) : List.Sorted nameLe (sortByName l) :=
  List.sorted_insertionSort nameLe l

lemma sortByName_perm (l : List Box) : sortByName l ~ l :=
  List.perm_insertionSort nameLe l

lemma strict_names_of_sorted_nodup (l : List Box) (hs : List.Sorted nameLe l)
    (hn : (l.map Box.name).Nodup) : l.Pairwise (fun a b => a.name < b.name) := by
  have h2 : l.Pairwise (fun a b => a.name ≠ b.name) := List.pairwise_map.mp hn
  exact (List.Pairwise.and hs h2).imp (fun h => lt_of_le_of_ne h.1 h.2)

lemma cross_loop_nodup (coins : Nat → Nat) :
    ∀ (ps : List (Box × Box)) (baby : List Box) (i : Nat),
      baby.Nodup →
      (∀ b ∈ baby, (∀ q ∈ ps, b.name < q.1.name) ∨ (∀ q ∈ ps, b.name < q.2.name)) →
      (ps.map Prod.fst).Pairwise (fun a b => a.name < b.name) →
      (ps.map Prod.snd).Pairwise (fun a b => a.name < b.name) →
      (cross_loop coins ps baby i).Nodup := by
  intro ps
  induction ps with
  | nil => intro baby i hb _ _ _; exact hb
  | cons q qs ih =>
    intro baby i hb hinv h1 h2
    rw [List.map_cons] at h1 h2
    have h1c := List.pairwise_cons.mp h1
    have h2c := List.pairwise_cons.mp h2
    have hq1 : ∀ q' ∈ qs, q.1.name < q'.1.name := fun q' hq' =>
      h1c.1 _ (List.mem_map_of_mem Prod.fst hq')
    have hq2 : ∀ q' ∈ qs, q.2.name < q'.2.name := fun q' hq' =>
      h2c.1 _ (List.mem_map_of_mem Prod.snd hq')
    have key : ¬(q.1 ∈ baby ∧ q.2 ∈ baby) := by
      rintro ⟨hm1, hm2⟩
      rcases hinv q.1 hm1 with h | h
      · exact lt_irrefl _ (h q (List.mem_cons_self q qs))
      · have h12 : q.1.name < q.2.name := h q (List.mem_cons_self q qs)
        rcases hinv q.2 hm2 with h' | h'
        · exact lt_asymm h12 (h' q (List.mem_cons_self q qs))
        · exact lt_irrefl _ (h' q (List.mem_cons_self q qs))
    have main : ∀ e : Box, e ∉ baby →
        ((∀ q' ∈ qs, e.name < q'.1.name) ∨ (∀ q' ∈ qs, e.name < q'.2.name)) →
        (cross_loop coins qs (baby ++ [e]) (i + 1)).Nodup := by
      intro e he hd
      apply ih (baby ++ [e]) (i + 1)
      · refine List.Nodup.append hb (List.nodup_singleton e) ?_
        intro a ha1 ha2
        rw [List.mem_singleton] at ha2
        subst ha2
        exact he ha1
      · intro b hbmem
        rcases List.mem_append.mp hbmem with hbb | hbe
        · rcases hinv b hbb with h | h
          · exact Or.inl (fun q' hq' => h q' (List.mem_cons_of_mem q hq'))
          · exact Or.inr (fun q' hq' => h q' (List.mem_cons_of_mem q hq'))
        · rw [List.mem_singleton] at hbe
          subst hbe
          exact hd
      · exact h1c.2
      · exact h2c.2
    simp only [cross_loop, cross_step]
    by_cases hc : coins i % 2 = 0
    · rw [if_pos hc]
      by_cases hm : q.1 ∈ baby
      · rw [if_pos hm]
        exact main q.2 (fun hm2 => key ⟨hm, hm2⟩) (Or.inr hq2)
      · rw [if_neg hm]
        exact main q.1 hm (Or.inl hq1)
    · rw [if_neg hc]
      by_cases hm : q.2 ∈ baby
      · rw [if_pos hm]
        exact main q.1 (fun hm1 => key ⟨hm1, hm⟩) (Or.inl hq1)
      · rw [if_neg hm]
        exact main q.2 hm (Or.inr hq2)

lemma crossover_nodup_aux (x y : Chromosome) (coins : Nat → Nat)
    (hx : (x.boxes.map Box.name).Nodup) (hy : (y.boxes.map Box.name).Nodup)
    (hlen : x.boxes.length = y.boxes.length) :
    ((crossover x y coins).boxes).Nodup := by
  unfold crossover
  by_cases hd : dupe_check x y = true
  · rw [if_pos hd]
    exact hx.of_map
  · rw [if_neg hd]
    dsimp only
    have hx' : ((sortByName x.boxes).map Box.name).Nodup :=
      (((sortByName_perm x.boxes).map Box.name).nodup_iff).mpr hx
    have hy' : ((sortByName y.boxes).map Box.name).Nodup :=
      (((sortByName_perm y.boxes).map Box.name).nodup_iff).mpr hy
    have hlx : (sortByName x.boxes).length = x.boxes.length :=
      (sortByName_perm x.boxes).length_eq
    have hly : (sortByName y.boxes).length = y.boxes.length :=
      (sortByName_perm y.boxes).length_eq
    apply cross_loop_nodup
    · exact List.nodup_nil
    · intro b hbmem
      exact absurd hbmem (List.not_mem_nil b)
    · rw [List.map_fst_zip _ _ (by rw [hlx, hly, hlen])]
      exact strict_names_of_sorted_nodup _ (sortByName_sorted _) hx'
    · rw [List.map_snd_zip _ _ (by rw [hlx, hly, hlen])]
      exact strict_names_of_sorted_nodup _ (sortByName_sorted _) hy'

lemma names_nodup_of_mem_catalog (l catalog : List Box) (hl : l.Nodup)
    (hsub : ∀ b ∈ l, b ∈ catalog) (hcat : (catalog.map Box.name).Nodup) :
    (l.map Box.name).Nodup := by
  have hp : catalog.Pairwise (fun a b => a.name ≠ b.name) := List.pairwise_map.mp hcat
  have hsymm : Symmetric (fun a b : Box => a.name ≠ b.name) := fun _ _ h => h.symm
  refine hl.map_on ?_
  intro a ha b hb heq
  by_contra hne
  exact hp.forall hsymm (hsub a ha) (hsub b hb) hne heq

/-- C4 counterexample: the claim asserts that *some* pair of non-identical,
duplicate-free 3-gene parents over a distinctly-named catalog and some coin
sequence makes `crossover` place the same item in two gene positions.  No
such inputs exist: because both parents are sorted by name before the
position-wise loop, a duplicate could only be appended when both candidates
of a position are already in the child, which forces each parent's gene at
that position to have come from a strictly earlier (hence strictly
smaller-named) position of the *other* parent — giving the contradictory
`x_i < y_i` and `y_i < x_i`. -/
theorem C4_no_duplicate_child :
    ¬ ∃ (x y : Chromosome) (catalog : List Box) (coins : Nat → Nat),
        (catalog.map Box.name).Nodup
        ∧ x.boxes.Nodup ∧ y.boxes.Nodup
        ∧ x.boxes.length = 3 ∧ y.boxes.length = 3
        ∧ (∀ b ∈ x.boxes, b ∈ catalog) ∧ (∀ b ∈ y.boxes, b ∈ catalog)
        ∧ x.boxes ≠ y.boxes
        ∧ ¬ ((crossover x y coins).boxes).Nodup := by
  rintro ⟨x, y, catalog, coins, hcat, hxn, hyn, hxl, hyl, hxc, hyc, -, hdup⟩
  exact hdup (crossover_nodup_aux x y coins
    (names_nodup_of_mem_catalog _ _ hxn hxc hcat)
    (names_nodup_of_mem_catalog _ _ hyn hyc hcat)
    (by rw [hxl, hyl]))

/-- C4 (amended): for every pair of equal-length parents whose gene names are
each duplicate-free (as holds for duplicate-free chromosomes over a
distinctly-named catalog) and every coin sequence, the `crossover` child has
pairwise-distinct genes — the no-duplicate invariant *is* preserved by
crossover, contrary to the claim's (and the spec's) expectation that the
already-placed-only check can let duplicates through. -/
theorem C4_crossover_preserves_distinct (x y : Chromosome) (coins : Nat → Nat)
    (hx : (x.boxes.map Box.name).Nodup) (hy : (y.boxes.map Box.name).Nodup)
    (hlen : x.boxes.length = y.boxes.length) :
    ((crossover x y coins).boxes).Nodup :=
  crossover_nodup_aux x y coins hx hy hlen

/-- C4 witness: the amended theorem applied to the concrete parents
`{a, b, c}` and `{a, b, d}` with the all-heads coin stream. -/
theorem C4_crossover_preserves_distinct_witness :
    (chromABC.boxes.map Box.name).Nodup ∧ (chromABD.boxes.map Box.name).Nodup
    ∧ chromABC.boxes.length = chromABD.boxes.length
    ∧ ((crossover chromABC chromABD (fun _ => 0)).boxes).Nodup :=
  ⟨by decide, by decide, rfl,
   C4_crossover_preserves_distinct chromABC chromABD (fun _ => 0)
     (by decide) (by decide) rfl⟩

/-- C7 counterexample: for two chromosomes holding the same multiset of two
same-named (but distinct) boxes in opposite orders, `dupe_check` is false —
the stable name-sort leaves both input orders unchanged, so the sorted
sequences differ element-wise even though the multisets agree.  Hence
`dupe_check` is not equivalent to multiset equality over *every* pair of
chromosomes. -/
theorem C7_same_multiset_but_dupe_check_false :
    (⟨[⟨'a', 1, 1⟩, ⟨'a', 2, 2⟩], 0, 0, 0⟩ : Chromosome).boxes.Perm
      (⟨[⟨'a', 2, 2⟩, ⟨'a', 1, 1⟩], 0, 0, 0⟩ : Chromosome).boxes
    ∧ dupe_check ⟨[⟨'a', 1, 1⟩, ⟨'a', 2, 2⟩], 0, 0, 0⟩
        ⟨[⟨'a', 2, 2⟩, ⟨'a', 1, 1⟩], 0, 0, 0⟩ = false :=
  ⟨List.Perm.swap _ _ _, by decide⟩

/-- C7 (amended): `dupe_check x y` is true exactly when the name-sorted gene
sequences coincide; this always implies that `x` and `y` hold the same
multiset of items, and for chromosomes whose gene names are pairwise distinct
(as for duplicate-free chromosomes over a distinctly-named catalog, the only
kind the program builds) it is true *iff* they hold the same multiset.  The
unrestricted claim fails on same-named distinct items (see the
counterexample). -/
theorem C7_dupe_check_iff_multiset (x y : Chromosome)
    (hx : (x.boxes.map Box.name).Nodup) :
    dupe_check x y = true ↔ x.boxes.Perm y.boxes := by
  constructor
  · intro h
    have heq : sortByName x.boxes = sortByName y.boxes := of_decide_eq_true h
    exact (sortByName_perm x.boxes).symm.trans (heq ▸ sortByName_perm y.boxes)
  · intro hperm
    have hsx := strict_names_of_sorted_nodup _ (sortByName_sorted x.boxes)
      ((((sortByName_perm x.boxes).map Box.name).nodup_iff).mpr hx)
    have hy : (y.boxes.map Box.name).Nodup := (hperm.map Box.name).nodup_iff.mp hx
    have hsy := strict_names_of_sorted_nodup _ (sortByName_sorted y.boxes)
      ((((sortByName_perm y.boxes).map Box.name).nodup_iff).mpr hy)
    have hps : sortByName x.boxes ~ sortByName y.boxes :=
      (sortByName_perm x.boxes).trans (hperm.trans (sortByName_perm y.boxes).symm)
    have heq : sortByName x.boxes = sortByName y.boxes :=
      List.eq_of_perm_of_sorted hps hsx hsy
    unfold dupe_check
    exact decide_eq_true heq

/-- C7 witness: the amended equivalence applied to `{a, b, c}` and its
reordering `{b, a, c}`, which `dupe_check` accepts. -/
theorem C7_dupe_check_iff_multiset_witness :
    (chromABC.boxes.map Box.name).Nodup
    ∧ (dupe_check chromABC chromBAC = true ↔ chromABC.boxes.Perm chromBAC.boxes)
    ∧ dupe_check chromABC chromBAC = true :=
  ⟨by decide, C7_dupe_check_iff_multiset chromABC chromBAC (by decide), by decide⟩

end Knapsack
